import Mathlib

/-!
Verification of the Mononoke `repo_client` wire-command engine
(`src/repo_client/src/client/mod.rs`) against its natural-language
specification.

Conventions of the shallow embedding:
* `HgNodeHash` is modelled as `Nat`, with `NULL_HASH := 0`.
* Futures/streams become explicit lists; a fallible computation returns
  `Option`/`Except`.  Lazy walks that may not terminate on arbitrary graph
  shapes take an explicit `fuel` argument; every theorem supplies enough
  fuel for the repositories it talks about, so the fuel never changes the
  modelled behaviour there.
* Collaborators that live outside the embedded sources (the blob
  repository, `mercurial_types` parsers, `changed_entry_stream_with_pruner`,
  the remotefilelog blob builder) are passed in as explicit function
  parameters, mirroring how the Rust code calls them as black boxes.
-/

namespace Mononoke

/-- Model of `HgNodeHash` (a 20-byte content hash). -/
abbrev Hash := Nat

/-- The null/root sentinel hash (`NULL_HASH` in `mercurial_types`). -/
def NULL_HASH : Hash := 0

/-- Model of `MPath`: a path as a list of components. -/
abbrev MPath := List String

/-- Hex rendering of a hash (`to_hex` on node hashes); used opaquely. -/
def toHex (n : Hash) : String := ⟨Nat.toDigits 16 n⟩

/-! ## The `between` command (`HgCommands::between`) -/

/-- Model of `HgBlobChangeset`: only the first parent is consulted by
`between` (`cs.p1()`). -/
structure HgBlobChangeset where
  p1 : Option Hash
deriving Repr, DecidableEq

/-- The slice of the blob repository `between` consumes:
`get_changeset_by_changesetid`, where `none` models a failed fetch. -/
structure Repo where
  getChangesetByChangesetid : Hash → Option HgBlobChangeset

/-- Model of `ParentStream::poll`, iterated to a list.  At each step: if the cursor
equals `bottom` or `NULL_HASH` the stream ends; otherwise the changeset is
fetched (a failed fetch fails the stream), the previous cursor is emitted and
the cursor advances to `p1` (or `NULL_HASH` when there is no first parent).
`fuel` bounds the number of polls; all theorems provide enough of it. -/
def parentStream (repo : Repo) (bottom : Hash) : Nat → Hash → Option (List Hash)
  | 0, _ => none
  | fuel + 1, n =>
    if n = bottom ∨ n = NULL_HASH then
      some []
    else
      match repo.getChangesetByChangesetid n with
      | none => none
      | some cs => (parentStream repo bottom fuel (cs.p1.getD NULL_HASH)).map (n :: ·)

/-- The `enumerate().filter(...)` sampling in `between`: a threshold `f`
starts at 1; the element at index `i` is kept exactly when `i == f`, and then
`f` is doubled. -/
def betweenFilter : Nat → Nat → List Hash → List Hash
  | _, _, [] => []
  | f, i, x :: xs => if i = f then x :: betweenFilter (f * 2) (i + 1) xs else betweenFilter f (i + 1) xs

/-- One `(top, bottom)` pair of `between`: the parent stream from `top`,
passed through the sparse sampling filter. -/
def betweenPair (repo : Repo) (fuel : Nat) (top bottom : Hash) : Option (List Hash) :=
  (parentStream repo bottom fuel top).map (betweenFilter 1 0)

/-- The `between` command: the pairs are processed in order (`stream::iter_ok(...).and_then(...).collect()`),
one resulting list per input pair; the first failing pair fails the command. -/
def between (repo : Repo) (fuel : Nat) : List (Hash × Hash) → Option (List (List Hash))
  | [] => some []
  | p :: ps =>
    match betweenPair repo fuel p.1 p.2 with
    | none => none
    | some r => (between repo fuel ps).map (r :: ·)

/-- Changeset lookup over a synthetic first-parent chain `c`:
the node `c[i]` has first parent `c[i+1]`, the last node has no parent,
and hashes outside the chain do not exist. -/
def chainLookup : List Hash → Hash → Option HgBlobChangeset
  | [], _ => none
  | x :: rest, h => if h = x then some ⟨rest.head?⟩ else chainLookup rest h

/-- The repository consisting of exactly the first-parent chain `c`. -/
def chainRepo (c : List Hash) : Repo := ⟨chainLookup c⟩

/-- Whether `i` is a power of two (the set of indices kept by `betweenFilter 1 0`);
stated with a bounded search so that it is executable. -/
def isPow2 (n : Nat) : Bool := (List.range (n + 1)).any (fun k => n == 2 ^ k)

/-! ### Facts about `isPow2` -/

theorem isPow2_iff (n : Nat) : isPow2 n = true ↔ ∃ k, n = 2 ^ k := by
  simp only [isPow2, List.any_eq_true, List.mem_range, beq_iff_eq]
  constructor
  · rintro ⟨k, _, hk⟩
    exact ⟨k, hk⟩
  · rintro ⟨k, rfl⟩
    exact ⟨k, by have := Nat.lt_two_pow k; omega, rfl⟩

theorem isPow2_pos {n : Nat} (h : isPow2 n = true) : 0 < n := by
  obtain ⟨k, rfl⟩ := (isPow2_iff n).mp h
  exact Nat.pos_pow_of_pos k (by omega)

theorem isPow2_double {f : Nat} (h : isPow2 f = true) : isPow2 (f * 2) = true := by
  obtain ⟨k, rfl⟩ := (isPow2_iff f).mp h
  exact (isPow2_iff _).mpr ⟨k + 1, by ring⟩

/-- Between consecutive powers of two there is no power of two: a power of two
strictly above `f` is at least `f * 2`. -/
theorem isPow2_gap {f j : Nat} (hf : isPow2 f = true) (hj : isPow2 j = true)
    (hlt : f < j) : f * 2 ≤ j := by
  obtain ⟨a, rfl⟩ := (isPow2_iff f).mp hf
  obtain ⟨b, rfl⟩ := (isPow2_iff j).mp hj
  have hab : a < b := (Nat.pow_lt_pow_iff_right (by omega)).mp hlt
  calc 2 ^ a * 2 = 2 ^ (a + 1) := by ring
    _ ≤ 2 ^ b := Nat.pow_le_pow_right (by omega) (by omega)

/-! ### The sampling filter keeps exactly the power-of-two indices -/

theorem betweenFilter_spec (l : List Hash) :
    ∀ f i, isPow2 f = true → i ≤ f →
      betweenFilter f i l =
        ((List.range l.length).filter
            (fun t => decide (f ≤ i + t) && isPow2 (i + t))).map
          (fun t => l.getD t NULL_HASH) := by
  induction l with
  | nil => intro f i _ _; simp [betweenFilter]
  | cons x xs ih =>
    intro f i hf hi
    rw [List.length_cons, List.range_succ_eq_map, betweenFilter]
    by_cases hif : i = f
    · subst hif
      rw [if_pos rfl]
      have hp0 : (fun t => decide (i ≤ i + t) && isPow2 (i + t)) 0 = true := by
        simpa using hf
      have hfc : List.filter (fun t => decide (i ≤ i + t) && isPow2 (i + t))
            (0 :: List.map Nat.succ (List.range xs.length))
          = 0 :: List.filter (fun t => decide (i ≤ i + t) && isPow2 (i + t))
              (List.map Nat.succ (List.range xs.length)) :=
        List.filter_cons_of_pos hp0
      rw [hfc, List.map_cons]
      have hgd : (x :: xs).getD 0 NULL_HASH = x := rfl
      rw [hgd, List.filter_map, List.map_map]
      congr 1
      rw [ih (i * 2) (i + 1) (isPow2_double hf) (by have := isPow2_pos hf; omega)]
      have hpred : ∀ t ∈ List.range xs.length,
          (decide (i * 2 ≤ i + 1 + t) && isPow2 (i + 1 + t))
            = ((fun t => decide (i ≤ i + t) && isPow2 (i + t)) ∘ Nat.succ) t := by
        intro t _
        simp only [Function.comp_apply]
        have harith : i + Nat.succ t = i + 1 + t := by omega
        rw [harith]
        cases hp : isPow2 (i + 1 + t) with
        | false => simp
        | true =>
          have h1 : i ≤ i + 1 + t := by omega
          have h2 : i * 2 ≤ i + 1 + t := isPow2_gap hf hp (by omega)
          simp only [Bool.and_true]
          rw [decide_eq_true (by omega : i * 2 ≤ i + 1 + t), decide_eq_true h1]
      rw [List.filter_congr hpred]
      apply List.map_congr_left
      intro t ht
      simp only [Function.comp_apply]
      rfl
    · have hilt : i < f := lt_of_le_of_ne hi hif
      rw [if_neg hif]
      have hp0 : ¬ (fun t => decide (f ≤ i + t) && isPow2 (i + t)) 0 = true := by
        simp only [Nat.add_zero]
        rw [decide_eq_false (by omega : ¬ f ≤ i)]
        simp
      have hfc : List.filter (fun t => decide (f ≤ i + t) && isPow2 (i + t))
            (0 :: List.map Nat.succ (List.range xs.length))
          = List.filter (fun t => decide (f ≤ i + t) && isPow2 (i + t))
              (List.map Nat.succ (List.range xs.length)) :=
        List.filter_cons_of_neg hp0
      rw [hfc, List.filter_map, List.map_map]
      rw [ih f (i + 1) hf (by omega)]
      have hpred : ∀ t ∈ List.range xs.length,
          (decide (f ≤ i + 1 + t) && isPow2 (i + 1 + t))
            = ((fun t => decide (f ≤ i + t) && isPow2 (i + t)) ∘ Nat.succ) t := by
        intro t _
        simp only [Function.comp_apply]
        have harith : i + Nat.succ t = i + 1 + t := by omega
        rw [harith]
      rw [List.filter_congr hpred]
      apply List.map_congr_left
      intro t ht
      simp only [Function.comp_apply]
      rfl

theorem betweenFilter_one (l : List Hash) :
    betweenFilter 1 0 l
      = ((List.range l.length).filter isPow2).map (fun t => l.getD t NULL_HASH) := by
  rw [betweenFilter_spec l 1 0 rfl (by omega)]
  congr 1
  apply List.filter_congr
  intro t _
  simp only [Nat.zero_add]
  cases hp : isPow2 t with
  | false => simp
  | true =>
    have := isPow2_pos hp
    simp only [Bool.and_true]
    exact decide_eq_true (by omega)

/-! ### Walking a synthetic first-parent chain -/

theorem chainLookup_suffix {c : List Hash} (hnd : c.Nodup) {h : Hash} {t : List Hash}
    (hs : (h :: t) <:+ c) : chainLookup c h = some ⟨t.head?⟩ := by
  induction c with
  | nil =>
    obtain ⟨pre, hpre⟩ := hs
    simp at hpre
  | cons x rest ih =>
    obtain ⟨pre, hpre⟩ := hs
    cases pre with
    | nil =>
      simp only [List.nil_append, List.cons.injEq] at hpre
      obtain ⟨rfl, rfl⟩ := hpre
      simp [chainLookup]
    | cons y pre' =>
      simp only [List.cons_append, List.cons.injEq] at hpre
      obtain ⟨rfl, hpre⟩ := hpre
      have hsuf : (h :: t) <:+ rest := ⟨pre', hpre⟩
      have hmem : h ∈ rest := hsuf.subset (by simp)
      have hx : y ∉ rest := (List.nodup_cons.mp hnd).1
      have hne : h ≠ y := fun e => hx (e ▸ hmem)
      rw [chainLookup, if_neg hne]
      exact ih (List.nodup_cons.mp hnd).2 hsuf

theorem headD_eq_head?_getD (t : List Hash) (d : Hash) : t.head?.getD d = t.headD d := by
  cases t <;> rfl

/-- The parent stream over the chain repository `chainRepo c`, started at the
head of a suffix `s` of `c`, emits the elements of `s` up to (and excluding)
the first occurrence of `bottom`. -/
theorem parentStream_chain {c : List Hash} (hnd : c.Nodup) (h0 : NULL_HASH ∉ c)
    (bottom : Hash) :
    ∀ (s : List Hash) (fuel : Nat), s <:+ c → s.length + 1 ≤ fuel →
      parentStream (chainRepo c) bottom fuel (s.headD NULL_HASH)
        = some (s.takeWhile (fun h => decide (h ≠ bottom))) := by
  intro s
  induction s with
  | nil =>
    intro fuel _ hfuel
    match fuel, hfuel with
    | fuel + 1, _ => simp [parentStream, List.headD, NULL_HASH]
  | cons x t ih =>
    intro fuel hs hfuel
    match fuel, hfuel with
    | fuel + 1, hfuel =>
      have hmem : x ∈ c := hs.subset (by simp)
      simp only [List.headD]
      rw [parentStream]
      by_cases hxb : x = bottom
      · subst hxb
        rw [if_pos (Or.inl rfl)]
        simp [List.takeWhile]
      · have hx0 : x ≠ NULL_HASH := fun e => h0 (e ▸ hmem)
        rw [if_neg (by tauto)]
        have hcl : (chainRepo c).getChangesetByChangesetid x = some ⟨t.head?⟩ :=
          chainLookup_suffix hnd hs
        rw [hcl]
        have ht : t <:+ c := (List.suffix_cons x t).trans hs
        have hlen : (x :: t).length = t.length + 1 := rfl
        have hrec := ih fuel ht (by omega)
        simp only [headD_eq_head?_getD] at hrec ⊢
        rw [hrec]
        simp [List.takeWhile, hxb]

/-- On a duplicate-free list, taking up to the element at index `d` is the
same as taking while different from that element. -/
theorem takeWhile_ne_get {c : List Hash} (hnd : c.Nodup) (d : Nat) (hd : d < c.length) :
    c.takeWhile (fun h => decide (h ≠ c.get ⟨d, hd⟩)) = c.take d := by
  induction c generalizing d with
  | nil => simp at hd
  | cons x rest ih =>
    cases d with
    | zero => simp [List.takeWhile]
    | succ d' =>
      have hd' : d' < rest.length := by simpa using hd
      have hx : x ∉ rest := (List.nodup_cons.mp hnd).1
      have hmem : rest.get ⟨d', hd'⟩ ∈ rest := rest.get_mem d' hd'
      have hne : x ≠ rest.get ⟨d', hd'⟩ := fun e => hx (e ▸ hmem)
      have hget : (x :: rest).get ⟨d' + 1, hd⟩ = rest.get ⟨d', hd'⟩ := rfl
      rw [hget, List.takeWhile, List.take]
      simp only [decide_eq_true hne, List.cons.injEq]
      exact ⟨trivial, ih (List.nodup_cons.mp hnd).2 d' hd'⟩

theorem between_forall2 {repo : Repo} {fuel : Nat} :
    ∀ {pairs : List (Hash × Hash)} {res : List (List Hash)},
      between repo fuel pairs = some res →
      List.Forall₂ (fun p r => betweenPair repo fuel p.1 p.2 = some r) pairs res := by
  intro pairs
  induction pairs with
  | nil =>
    intro res h
    simp only [between, Option.some.injEq] at h
    subst h
    exact List.Forall₂.nil
  | cons p ps ih =>
    intro res h
    rw [between] at h
    cases hp : betweenPair repo fuel p.1 p.2 with
    | none => rw [hp] at h; cases h
    | some r =>
      rw [hp] at h
      cases hrest : between repo fuel ps with
      | none => rw [hrest] at h; cases h
      | some rs =>
        rw [hrest] at h
        simp only [Option.map_some', Option.some.injEq] at h
        subst h
        exact List.Forall₂.cons hp (ih hrest)

/-- The sampling filter only keeps elements of its input. -/
theorem betweenFilter_sublist : ∀ (f i : Nat) (l : List Hash), List.Sublist (betweenFilter f i l) l := by
  intro f i l
  induction l generalizing f i with
  | nil => simp [betweenFilter]
  | cons x xs ih =>
    rw [betweenFilter]
    by_cases hif : i = f
    · rw [if_pos hif]
      exact (ih (f * 2) (i + 1)).cons₂ x
    · rw [if_neg hif]
      exact (ih f (i + 1)).cons x

/-- A successful parent stream never contains the terminating node
(`bottom`) nor the null sentinel: both are consumed by termination. -/
theorem parentStream_terminal_not_mem {repo : Repo} {bottom : Hash} :
    ∀ (fuel : Nat) (n : Hash) (l : List Hash),
      parentStream repo bottom fuel n = some l → bottom ∉ l ∧ NULL_HASH ∉ l := by
  intro fuel
  induction fuel with
  | zero => intro n l h; cases h
  | succ fuel ih =>
    intro n l h
    rw [parentStream] at h
    by_cases hterm : n = bottom ∨ n = NULL_HASH
    · rw [if_pos hterm] at h
      obtain rfl : ([] : List Hash) = l := Option.some.inj h
      simp
    · rw [if_neg hterm] at h
      cases hcs : repo.getChangesetByChangesetid n with
      | none => rw [hcs] at h; cases h
      | some cs =>
        rw [hcs] at h
        dsimp only at h
        cases hrec : parentStream repo bottom fuel (cs.p1.getD NULL_HASH) with
        | none => rw [hrec] at h; cases h
        | some l' =>
          rw [hrec] at h
          simp only [Option.map_some', Option.some.injEq] at h
          subst h
          obtain ⟨hb, h0⟩ := ih _ _ hrec
          push_neg at hterm
          simp only [List.mem_cons, not_or]
          exact ⟨⟨fun e => hterm.1 e.symm, hb⟩, ⟨fun e => hterm.2 e.symm, h0⟩⟩

/-- C1: for every list of `(top, bottom)` pairs, `between` returns one list
per input pair, in input pair order (`Forall₂` pairs each input pair with its
result); on a synthetic first-parent chain `c` whose node at position `N`
(with the top at position 0) is `bottom`, the pair's list is exactly the
hashes at the power-of-two positions `1, 2, 4, 8, …` strictly before the
terminating node, i.e. `< N`; and `between(x, x)` yields the empty list. -/
theorem between_sparse_ancestor_sampling
    (repo : Repo) (fuel : Nat) (pairs : List (Hash × Hash)) (res : List (List Hash))
    (c : List Hash) (N : Nat)
    (hres : between repo fuel pairs = some res)
    (hnd : c.Nodup) (h0 : NULL_HASH ∉ c)
    (hN : N < c.length) (hfuel : c.length + 1 ≤ fuel) :
    List.Forall₂ (fun p r => betweenPair repo fuel p.1 p.2 = some r) pairs res
    ∧ betweenPair (chainRepo c) fuel (c.headD NULL_HASH) (c.get ⟨N, hN⟩)
        = some (((List.range N).filter isPow2).map (fun i => c.getD i NULL_HASH))
    ∧ (∀ x, betweenPair repo fuel x x = some []) := by
  refine ⟨between_forall2 hres, ?_, ?_⟩
  · unfold betweenPair
    rw [parentStream_chain hnd h0 (c.get ⟨N, hN⟩) c fuel (List.suffix_refl c) hfuel]
    rw [takeWhile_ne_get hnd N hN, Option.map_some', betweenFilter_one]
    have hlen : (c.take N).length = N := by
      rw [List.length_take]
      exact min_eq_left (Nat.le_of_lt hN)
    rw [hlen]
    congr 1
    apply List.map_congr_left
    intro t ht
    have htN : t < N := List.mem_range.mp (List.mem_filter.mp ht).1
    rw [List.getD_eq_getElem?_getD, List.getD_eq_getElem?_getD, List.getElem?_take,
      if_pos htN]
  · intro x
    obtain ⟨fuel', rfl⟩ : ∃ m, fuel = m + 1 := ⟨fuel - 1, by omega⟩
    unfold betweenPair
    rw [parentStream, if_pos (Or.inl rfl)]
    rfl

/-- Witness for C1 on the spec's own example: a first-parent chain of ten
commits `1, …, 10` rooted at `bottom = 10` yields exactly the hashes at
positions `{1, 2, 4, 8}`, and `between(3, 3)` yields the empty list. -/
theorem between_sparse_ancestor_sampling_witness :
    List.Forall₂
        (fun p r => betweenPair (chainRepo [1, 2, 3, 4, 5, 6, 7, 8, 9, 10]) 11 p.1 p.2 = some r)
        [((1 : Hash), (10 : Hash))] [[2, 3, 5, 9]]
    ∧ betweenPair (chainRepo [1, 2, 3, 4, 5, 6, 7, 8, 9, 10]) 11 1 10
        = some (((List.range 9).filter isPow2).map
            (fun i => [1, 2, 3, 4, 5, 6, 7, 8, 9, 10].getD i NULL_HASH))
    ∧ betweenPair (chainRepo [1, 2, 3, 4, 5, 6, 7, 8, 9, 10]) 11 3 3 = some [] := by
  have h := between_sparse_ancestor_sampling
    (chainRepo [1, 2, 3, 4, 5, 6, 7, 8, 9, 10]) 11 [((1 : Hash), (10 : Hash))] [[2, 3, 5, 9]]
    [1, 2, 3, 4, 5, 6, 7, 8, 9, 10] 9 (by decide) (by decide) (by decide) (by decide) (by decide)
  exact ⟨h.1, h.2.1, h.2.2 3⟩

/-- C7: the terminating node (`bottom` or the null sentinel) is never emitted
in a pair's ancestor list; and when `bottom` is unreachable from the top along
the first-parent chain `c`, the walk runs to the null sentinel, producing the
sparse sample of the entire chain. -/
theorem between_terminator_not_emitted_and_unreachable
    (repo : Repo) (fuel : Nat) (top bottom : Hash) (l : List Hash)
    (c : List Hash)
    (hl : betweenPair repo fuel top bottom = some l)
    (hnd : c.Nodup) (h0 : NULL_HASH ∉ c) (hb : bottom ∉ c)
    (hfuel : c.length + 1 ≤ fuel) :
    (bottom ∉ l ∧ NULL_HASH ∉ l)
    ∧ betweenPair (chainRepo c) fuel (c.headD NULL_HASH) bottom
        = some (((List.range c.length).filter isPow2).map
            (fun i => c.getD i NULL_HASH)) := by
  constructor
  · unfold betweenPair at hl
    cases hps : parentStream repo bottom fuel top with
    | none => rw [hps] at hl; cases hl
    | some pl =>
      rw [hps] at hl
      simp only [Option.map_some', Option.some.injEq] at hl
      subst hl
      obtain ⟨hbp, h0p⟩ := parentStream_terminal_not_mem fuel top pl hps
      have hsub := (betweenFilter_sublist 1 0 pl).subset
      exact ⟨fun hmem => hbp (hsub hmem), fun hmem => h0p (hsub hmem)⟩
  · unfold betweenPair
    rw [parentStream_chain hnd h0 bottom c fuel (List.suffix_refl c) hfuel]
    have hself : c.takeWhile (fun h => decide (h ≠ bottom)) = c := by
      rw [List.takeWhile_eq_self_iff]
      intro x hx
      exact decide_eq_true fun e => hb (e ▸ hx)
    rw [hself, Option.map_some', betweenFilter_one]

/-- Witness for C7: on the chain `1, …, 5` with unreachable `bottom = 99`,
the walk emits the sparse sample `[2, 3, 5]` of the full chain and the result
contains neither `99` nor the null sentinel. -/
theorem between_terminator_not_emitted_and_unreachable_witness :
    ((99 : Hash) ∉ [2, 3, 5] ∧ NULL_HASH ∉ [2, 3, 5])
    ∧ betweenPair (chainRepo [1, 2, 3, 4, 5]) 6 ([1, 2, 3, 4, 5].headD NULL_HASH) 99
        = some (((List.range 5).filter isPow2).map
            (fun i => [1, 2, 3, 4, 5].getD i NULL_HASH)) :=
  between_terminator_not_emitted_and_unreachable
    (chainRepo [1, 2, 3, 4, 5]) 6 1 99 [2, 3, 5] [1, 2, 3, 4, 5]
    (by decide) (by decide) (by decide) (by decide) (by decide)

/-! ## The `lookup` command (`HgCommands::lookup`) -/

/-- Model of `generate_resp_buf`: a success byte (`'1'`/`'0'`), a space, the message,
and a newline.  Bytes are modelled as a `String`. -/
def generateRespBuf (success : Bool) (message : String) : String :=
  (if success then "1" else "0") ++ " " ++ message ++ "\n"

/-- The slice of the blob repository `lookup` consumes:
`changeset_exists` and `get_bookmark`. -/
structure LookupRepo where
  changesetExists : Hash → Bool
  getBookmark : String → Option Hash

/-- Model of `check_bookmark_exists`: resolve the bookmark; a hit yields a success
record with the hex hash, a miss yields a `"<name> not found"` failure. -/
def checkBookmarkExists (repo : LookupRepo) (bookmark : String) : String :=
  match repo.getBookmark bookmark with
  | some csid => generateRespBuf true (toHex csid)
  | none => generateRespBuf false (bookmark ++ " not found")

/-- The `lookup` command.  `parseHash` models `HgNodeHash::from_str` and `parseBookmark`
models `Bookmark::new`, both external parsers called as black boxes; the
match over `(node, bookmark)` is the source's, including its catch-all arm
(which covers both the hash-only and the neither case). -/
def lookup (repo : LookupRepo) (parseHash : String → Option Hash)
    (parseBookmark : String → Option String) (key : String) : String :=
  match parseHash key, parseBookmark key with
  | some node, some bookmark =>
    if repo.changesetExists node then generateRespBuf true (toHex node)
    else checkBookmarkExists repo bookmark
  | none, some bookmark => checkBookmarkExists repo bookmark
  | _, _ => generateRespBuf false "invalid input"

/-- A repository in which every changeset exists and no bookmark resolves,
and a key that parses as hash `5` but not as a bookmark name: used to show
that `lookup` then answers "invalid input" despite the hash existing. -/
def lookupCexRepo : LookupRepo := ⟨fun _ => true, fun _ => none⟩

/-- C2 counterexample: a key that parses as a content hash of an existing
changeset but fails bookmark-name parsing is answered with the
"invalid input" failure record, not with the hash-based success record —
refuting the claim's unconditional "parses as a hash and exists ⇒ hash-based
success". -/
theorem lookup_hash_exists_not_success_counterexample :
    (fun _ => some 5 : String → Option Hash) "k" = some 5
    ∧ lookupCexRepo.changesetExists 5 = true
    ∧ lookup lookupCexRepo (fun _ => some 5) (fun _ => none) "k"
        = generateRespBuf false "invalid input"
    ∧ lookup lookupCexRepo (fun _ => some 5) (fun _ => none) "k"
        ≠ generateRespBuf true (toHex 5) := by
  refine ⟨rfl, rfl, rfl, ?_⟩
  decide

/-- C2 (amended): resolution order of `lookup` —
if the key parses as both a content hash and a bookmark name and the
changeset exists, the hash-based success record is returned (even if the
bookmark points elsewhere); if it parses as both but the changeset does not
exist, the bookmark resolution result is returned; if it parses only as a
bookmark name, the bookmark resolution result is returned; if it parses as a
hash only, or as neither, the explicit "invalid input" failure record is
returned (not a protocol error). -/
theorem lookup_resolution_order
    (repo : LookupRepo) (parseHash : String → Option Hash)
    (parseBookmark : String → Option String) (key : String) :
    (∀ node bookmark, parseHash key = some node → parseBookmark key = some bookmark →
      repo.changesetExists node = true →
      lookup repo parseHash parseBookmark key = generateRespBuf true (toHex node))
    ∧ (∀ node bookmark, parseHash key = some node → parseBookmark key = some bookmark →
      repo.changesetExists node = false →
      lookup repo parseHash parseBookmark key = checkBookmarkExists repo bookmark)
    ∧ (∀ bookmark, parseHash key = none → parseBookmark key = some bookmark →
      lookup repo parseHash parseBookmark key = checkBookmarkExists repo bookmark)
    ∧ (parseBookmark key = none →
      lookup repo parseHash parseBookmark key = generateRespBuf false "invalid input") := by
  refine ⟨?_, ?_, ?_, ?_⟩
  · intro node bookmark hn hb hex
    unfold lookup
    rw [hn, hb]
    simp [hex]
  · intro node bookmark hn hb hex
    unfold lookup
    rw [hn, hb]
    simp [hex]
  · intro bookmark hn hb
    unfold lookup
    rw [hn, hb]
  · intro hb
    unfold lookup
    rw [hb]
    cases parseHash key <;> rfl

/-- Witness for the amended C2 at concrete inputs: a key parsing as hash `7`
(existing) and as a bookmark pointing to `9` resolves to the hash's success
record, and a key parsing as neither gives the invalid-input record. -/
theorem lookup_resolution_order_witness :
    lookup ⟨fun n => n == 7, fun _ => some 9⟩ (fun _ => some 7) (fun k => some k) "b"
      = generateRespBuf true (toHex 7)
    ∧ lookup ⟨fun n => n == 7, fun _ => some 9⟩ (fun _ => none) (fun _ => none) "z"
      = generateRespBuf false "invalid input" :=
  ⟨(lookup_resolution_order ⟨fun n => n == 7, fun _ => some 9⟩
      (fun _ => some 7) (fun k => some k) "b").1 7 "b" rfl rfl (by decide),
   (lookup_resolution_order ⟨fun n => n == 7, fun _ => some 9⟩
      (fun _ => none) (fun _ => none) "z").2.2.2 rfl⟩

/-- C10: a key that parses as a valid content hash but not as a bookmark
name is answered with the "invalid input" failure record, for every
repository alike — in particular the hash's existence is never consulted. -/
theorem lookup_hash_only_invalid_input
    (repo repo' : LookupRepo) (parseHash : String → Option Hash)
    (parseBookmark : String → Option String) (key : String) (node : Hash)
    (hn : parseHash key = some node) (hb : parseBookmark key = none) :
    lookup repo parseHash parseBookmark key = generateRespBuf false "invalid input"
    ∧ lookup repo parseHash parseBookmark key
        = lookup repo' parseHash parseBookmark key := by
  have hgen : ∀ r : LookupRepo,
      lookup r parseHash parseBookmark key = generateRespBuf false "invalid input" := by
    intro r
    unfold lookup
    rw [hn, hb]
  exact ⟨hgen repo, (hgen repo).trans (hgen repo').symm⟩

/-- Witness for C10: with a key parsing as the existing hash `5` and not as
a bookmark, the result is the invalid-input record regardless of the
repository. -/
theorem lookup_hash_only_invalid_input_witness :
    lookup lookupCexRepo (fun _ => some 5) (fun _ => none) "k"
        = generateRespBuf false "invalid input"
    ∧ lookup lookupCexRepo (fun _ => some 5) (fun _ => none) "k"
        = lookup ⟨fun _ => false, fun _ => none⟩ (fun _ => some 5) (fun _ => none) "k" :=
  lookup_hash_only_invalid_input lookupCexRepo ⟨fun _ => false, fun _ => none⟩
    (fun _ => some 5) (fun _ => none) "k" 5 rfl rfl

/-! ## Capability negotiation (`hello`, `bundle2caps`) and `listkeys` -/

/-- The `wireprotocaps` list: the top-level wire-protocol capability strings. -/
def wireprotocaps : List String :=
  [ "lookup", "known", "getbundle", "unbundle=HG10GZ,HG10BZ,HG10UN",
    "gettreepack", "remotefilelog", "pushkey", "stream-preferred",
    "stream_option", "streamreqs=generaldelta,lz4revlog,revlogv1" ]

/-- The `caps` table of `bundle2caps` — note that `("listkeys", vec![])` is
deliberately commented out in the source. -/
def bundle2capsList : List (String × List String) :=
  [ ("HG20", []),
    ("changegroup", ["02"]),
    ("b2x:infinitepush", []),
    ("b2x:infinitepushscratchbookmarks", []),
    ("pushkey", []),
    ("treemanifestserver", ["True"]),
    ("b2x:rebase", []),
    ("b2x:rebasepackpart", []) ]

/-- The `encodedcaps` loop of `bundle2caps`: `key=v1,v2` when values are
present, bare `key` otherwise. -/
def encodedCaps : List String :=
  bundle2capsList.map fun kv =>
    if kv.2.length > 0 then kv.1 ++ "=" ++ String.intercalate "," kv.2 else kv.1

/-- The bundle2 sub-capability string before percent encoding: the
newline-joined `key[=value]` pairs handed to `percent_encode`. -/
def bundle2capsPre : String := String.intercalate "\n" encodedCaps

/-- The `hello` command: the singleton capability map; `percentEncode` models the
external `percent_encode` from `mercurial_types`. -/
def hello (percentEncode : String → String) : List (String × List String) :=
  [("capabilities", wireprotocaps ++ ["bundle2=" ++ percentEncode bundle2capsPre])]

/-- The `listkeys` command: for the `"bookmarks"` namespace, the repository's bookmark
`name → hex hash` mapping (`get_bookmarks` is modelled by the association
list `bookmarks`); every other namespace yields the empty mapping. -/
def listkeys (bookmarks : List (String × Hash)) (ns : String) :
    List (String × String) :=
  if ns = "bookmarks" then
    bookmarks.map fun nc => (nc.1, toHex nc.2)
  else
    []

set_option maxRecDepth 8192 in
/-- C4: the bundle2 sub-capability string advertised by `hello` never
contains a `listkeys` entry — `"listkeys"` is not even an infix of the
pre-encoding string, and no encoded capability has key `listkeys` — while
the standalone `listkeys` command on the `"bookmarks"` namespace returns the
repository's bookmark name-to-hash mapping and returns the empty mapping on
any other namespace. -/
theorem hello_no_listkeys_but_listkeys_works
    (bookmarks : List (String × Hash)) (ns : String) :
    (¬ List.IsInfix "listkeys".data bundle2capsPre.data)
    ∧ (∀ kv ∈ bundle2capsList, kv.1 ≠ "listkeys")
    ∧ listkeys bookmarks "bookmarks" = bookmarks.map (fun nc => (nc.1, toHex nc.2))
    ∧ (ns ≠ "bookmarks" → listkeys bookmarks ns = []) := by
  refine ⟨by decide, by decide, rfl, ?_⟩
  intro hns
  unfold listkeys
  rw [if_neg hns]

/-- Witness for C4 at concrete inputs: a one-bookmark repository and the
namespace `"namespaces"`. -/
theorem hello_no_listkeys_but_listkeys_works_witness :
    listkeys [("master", 5)] "bookmarks" = [("master", toHex 5)]
    ∧ listkeys [("master", 5)] "namespaces" = [] :=
  ⟨(hello_no_listkeys_but_listkeys_works [("master", 5)] "namespaces").2.2.1,
   (hello_no_listkeys_but_listkeys_works [("master", 5)] "namespaces").2.2.2 (by decide)⟩

/-! ## `gettreepack` (`gettreepack_untimed`, `get_changed_manifests_stream`) -/

/-- Entry kinds (`mercurial_types::Type`). -/
inductive EntryType
  | tree
  | file
  | executable
  | symlink
deriving Repr, DecidableEq

/-- Model of a manifest `Entry`: its content hash, kind and name. -/
structure Entry where
  hash : Hash
  etype : EntryType
  name : Option String
deriving Repr, DecidableEq

/-- The `EntryStatus` produced by the manifest diff walk. -/
inductive EntryStatus
  | added (toEntry : Entry)
  | modified (toEntry : Entry) (fromEntry : Entry)
  | deleted (path : MPath)
deriving Repr, DecidableEq

/-- A changed entry with the directory it lives in (`ChangedEntry`). -/
structure ChangedEntry where
  status : EntryStatus
  dirname : Option MPath
deriving Repr, DecidableEq

/-- The signature of the external diff-walk collaborator
(`get_manifest_by_nodeid` for both manifests followed by
`changed_entry_stream_with_pruner`, from `mercurial_types::manifest_utils`):
target manifest, base manifest, root path, pruner, depth. -/
abbrev DiffWalk (Pruner : Type) :=
  Hash → Hash → Option MPath → Pruner → Nat → Except String (List ChangedEntry)

/-- Model of `get_changed_manifests_stream`: when `maxDepth = 1` the function
short-circuits to the root entry stream without invoking the diff walk;
otherwise the walk's output is mapped to `(to_entry, dirname)` pairs —
with the source's `assert!` on file entries and `panic!` on deletions
modelled as stream errors — and the root entry stream is appended. -/
def getChangedManifestsStream {Pruner : Type} (diffWalk : DiffWalk Pruner)
    (getRootEntry : Hash → Entry) (mfid basemfid : Hash) (rootpath : Option MPath)
    (pruner : Pruner) (maxDepth : Nat) :
    Except String (List (Entry × Option MPath)) :=
  let rootEntryStream := [(getRootEntry mfid, rootpath)]
  if maxDepth = 1 then
    Except.ok rootEntryStream
  else
    (diffWalk mfid basemfid rootpath pruner maxDepth).bind fun entries =>
      (entries.mapM fun (ce : ChangedEntry) =>
        match ce.status with
        | EntryStatus.added e =>
          if e.etype = EntryType.tree then Except.ok (e, ce.dirname)
          else Except.error "FilePruner should have removed file entries"
        | EntryStatus.modified e _ =>
          if e.etype = EntryType.tree then Except.ok (e, ce.dirname)
          else Except.error "FilePruner should have removed file entries"
        | EntryStatus.deleted _ =>
          Except.error "DeletedPruner should have removed deleted entries").map
        fun mapped => mapped ++ rootEntryStream

/-- The `filter` closure of `gettreepack_untimed` over its `used_hashes`
set: keep an entry only when its content hash was not seen before. -/
def dedupByHash : List Hash → List (Entry × Option MPath) → List (Entry × Option MPath)
  | _, [] => []
  | seen, e :: es =>
    if e.1.hash ∈ seen then dedupByHash seen es
    else e :: dedupByHash (e.1.hash :: seen) es

/-- Model of `GettreepackArgs` (from `hgproto`): `rootdir` bytes are modelled as a
string, `directories` entries likewise. -/
structure GettreepackArgs where
  rootdir : String
  mfnodes : List Hash
  basemfnodes : List Hash
  directories : List String
  depth : Option Nat
deriving Repr, DecidableEq

/-- Model of `gettreepack_untimed`, up to wire framing (`treepack_part` /
`create_bundle_stream` serialize the surviving entries in order, so the
entry list is the observable content of the single tree part).  The pruner
plumbing (`CombinatorPruner::new(FilePruner, DeletedPruner)`, plus a shared
`VisitedPruner` for multi-target requests) is passed to the external walk;
`select_all`'s nondeterministic interleaving for the multi-target case is
modelled as concatenation in target order, and the dedup filter below is
quantified over arbitrary streams where the interleaving matters. -/
def gettreepackUntimed {Pruner : Type} (diffWalk : DiffWalk Pruner)
    (getRootEntry : Hash → Entry) (combinePruner : Pruner → Pruner → Pruner)
    (defaultPruner visitedPruner : Pruner) (parseMPath : String → Except String MPath)
    (params : GettreepackArgs) : Except String (List (Entry × Option MPath)) :=
  let fetchdepth := params.depth.getD (2 <<< 16)
  if params.directories ≠ [] then
    Except.error "directories param is not supported"
  else
    let basemfnode := (params.basemfnodes.get? 0).getD NULL_HASH
    (if params.rootdir = "" then Except.ok none
     else (parseMPath params.rootdir).map some).bind fun rootpath =>
      (if params.mfnodes.length > 1 then
        (params.mfnodes.mapM fun manifestId =>
          getChangedManifestsStream diffWalk getRootEntry manifestId basemfnode
            rootpath (combinePruner defaultPruner visitedPruner) fetchdepth).map
          List.flatten
      else
        match params.mfnodes.get? 0 with
        | some mfnode =>
          getChangedManifestsStream diffWalk getRootEntry mfnode basemfnode
            rootpath defaultPruner fetchdepth
        | none => Except.ok []).map fun changedEntries =>
        dedupByHash [] changedEntries

/-- C5: for `depth == 1`, `get_changed_manifests_stream` emits exactly one
entry per target manifest — its root entry — and the result does not depend
on the diff walk at all (no tree walk is performed), hence is independent of
the size of the diff between target and base. -/
theorem gettreepack_depth_one_short_circuit
    {Pruner : Type} (diffWalk : DiffWalk Pruner) (getRootEntry : Hash → Entry)
    (mfid basemfid : Hash) (rootpath : Option MPath) (pruner : Pruner) :
    getChangedManifestsStream diffWalk getRootEntry mfid basemfid rootpath pruner 1
      = Except.ok [(getRootEntry mfid, rootpath)]
    ∧ ∀ (diffWalk' : DiffWalk Pruner) (basemfid' : Hash),
        getChangedManifestsStream diffWalk getRootEntry mfid basemfid rootpath pruner 1
          = getChangedManifestsStream diffWalk' getRootEntry mfid basemfid' rootpath pruner 1 :=
  ⟨rfl, fun _ _ => rfl⟩

/-- C8: a `gettreepack` request with a non-empty `directories` parameter
fails with the explicit "directories param is not supported" error — the
whole response stream is that single error, so no tree entries are
emitted. -/
theorem gettreepack_directories_unsupported
    {Pruner : Type} (diffWalk : DiffWalk Pruner) (getRootEntry : Hash → Entry)
    (combinePruner : Pruner → Pruner → Pruner) (defaultPruner visitedPruner : Pruner)
    (parseMPath : String → Except String MPath) (params : GettreepackArgs)
    (hdir : params.directories ≠ []) :
    gettreepackUntimed diffWalk getRootEntry combinePruner defaultPruner visitedPruner
        parseMPath params
      = Except.error "directories param is not supported" := by
  unfold gettreepackUntimed
  rw [if_pos hdir]

/-- Witness for C8: a concrete request carrying `directories = ["foo"]`. -/
theorem gettreepack_directories_unsupported_witness :
    gettreepackUntimed ((fun _ _ _ _ _ => Except.ok []) : DiffWalk Unit)
        (fun h => ⟨h, EntryType.tree, none⟩) (fun _ _ => ()) () ()
        (fun _ => Except.ok []) ⟨"", [1], [], ["foo"], none⟩
      = Except.error "directories param is not supported" :=
  gettreepack_directories_unsupported ((fun _ _ _ _ _ => Except.ok []) : DiffWalk Unit)
    (fun h => ⟨h, EntryType.tree, none⟩) (fun _ _ => ()) () ()
    (fun _ => Except.ok []) ⟨"", [1], [], ["foo"], none⟩ (by decide)

/-- C9: only the first base manifest hash is consulted — a request with
bases `b :: rest` behaves exactly like the request with the single base
`[b]`, for any `rest` (silently ignored, not an error) — and a request with
no base behaves exactly like one whose base is the null hash (empty
manifest). -/
theorem gettreepack_uses_first_base_only
    {Pruner : Type} (diffWalk : DiffWalk Pruner) (getRootEntry : Hash → Entry)
    (combinePruner : Pruner → Pruner → Pruner) (defaultPruner visitedPruner : Pruner)
    (parseMPath : String → Except String MPath) (params : GettreepackArgs)
    (b : Hash) (rest : List Hash) :
    gettreepackUntimed diffWalk getRootEntry combinePruner defaultPruner visitedPruner
        parseMPath { params with basemfnodes := b :: rest }
      = gettreepackUntimed diffWalk getRootEntry combinePruner defaultPruner visitedPruner
          parseMPath { params with basemfnodes := [b] }
    ∧ gettreepackUntimed diffWalk getRootEntry combinePruner defaultPruner visitedPruner
          parseMPath { params with basemfnodes := [] }
      = gettreepackUntimed diffWalk getRootEntry combinePruner defaultPruner visitedPruner
          parseMPath { params with basemfnodes := [NULL_HASH] } :=
  ⟨rfl, rfl⟩

/-! ### Deduplication by content hash (C6) -/

/-- Exact count of a hash in the output of the `used_hashes` dedup filter:
one when the hash occurs in the input stream and was not already seen,
zero otherwise. -/
theorem dedupByHash_count (h : Hash) :
    ∀ (s : List (Entry × Option MPath)) (seen : List Hash),
      ((dedupByHash seen s).map (fun e => e.1.hash)).count h
        = if h ∈ s.map (fun e => e.1.hash) ∧ h ∉ seen then 1 else 0 := by
  intro s
  induction s with
  | nil => intro seen; simp [dedupByHash]
  | cons e es ih =>
    intro seen
    rw [dedupByHash]
    by_cases hseen : e.1.hash ∈ seen
    · rw [if_pos hseen, ih seen]
      by_cases heq : h = e.1.hash
      · subst heq
        simp [hseen]
      · simp only [List.map_cons, List.mem_cons]
        have : (h = e.1.hash ∨ h ∈ es.map fun e => e.1.hash) ↔ h ∈ es.map fun e => e.1.hash := by
          tauto
        rw [if_congr (and_congr_left' this) rfl rfl]
    · rw [if_neg hseen]
      rw [List.map_cons, List.count_cons, ih (e.1.hash :: seen)]
      by_cases heq : h = e.1.hash
      · subst heq
        have hnotin : ¬ (e.1.hash ∈ es.map (fun x => x.1.hash)
            ∧ e.1.hash ∉ e.1.hash :: seen) := by
          simp
        rw [if_neg hnotin]
        simp [hseen]
      · have hcond : (h ∈ es.map (fun e => e.1.hash) ∧ h ∉ e.1.hash :: seen)
            ↔ (h ∈ (e :: es).map (fun e => e.1.hash) ∧ h ∉ seen) := by
          simp only [List.map_cons, List.mem_cons, not_or]
          constructor
          · rintro ⟨hm, _, hs⟩
            exact ⟨Or.inr hm, hs⟩
          · rintro ⟨hm, hs⟩
            exact ⟨hm.resolve_left heq, heq, hs⟩
        rw [if_congr hcond rfl rfl]
        have : (e.1.hash == h) = false := by
          simp only [beq_eq_false_iff_ne]
          exact fun e' => heq e'.symm
        rw [this]
        simp

/-- C6: every content hash appears at most once after the dedup filter of
`gettreepack_untimed`: any successful `gettreepack` entry list has pairwise
distinct content hashes, and for a multi-target request over two identical
target manifests (whose merged stream is any interleaving, i.e. any
permutation of `s ++ s`) each changed hash is emitted exactly once. -/
theorem gettreepack_each_hash_at_most_once
    (s combined : List (Entry × Option MPath)) (h : Hash)
    (hperm : combined.Perm (s ++ s)) :
    ((dedupByHash [] combined).map (fun e => e.1.hash)).Nodup
    ∧ ((dedupByHash [] combined).map (fun e => e.1.hash)).count h
        = (if h ∈ s.map (fun e => e.1.hash) then 1 else 0)
    ∧ (∀ (Pruner : Type) (diffWalk : DiffWalk Pruner) (getRootEntry : Hash → Entry)
        (combinePruner : Pruner → Pruner → Pruner) (defaultPruner visitedPruner : Pruner)
        (parseMPath : String → Except String MPath) (params : GettreepackArgs)
        (res : List (Entry × Option MPath)),
        gettreepackUntimed diffWalk getRootEntry combinePruner defaultPruner visitedPruner
            parseMPath params = Except.ok res →
        (res.map (fun e => e.1.hash)).Nodup) := by
  have hnodup : ∀ t : List (Entry × Option MPath),
      ((dedupByHash [] t).map (fun e => e.1.hash)).Nodup := by
    intro t
    rw [List.nodup_iff_count_le_one]
    intro a
    rw [dedupByHash_count a t []]
    split <;> omega
  refine ⟨hnodup combined, ?_, ?_⟩
  · rw [dedupByHash_count h combined []]
    have hmem : h ∈ combined.map (fun e => e.1.hash) ↔ h ∈ s.map (fun e => e.1.hash) := by
      rw [(hperm.map (fun e => e.1.hash)).mem_iff, List.map_append, List.mem_append, or_self]
    simp only [List.not_mem_nil, not_false_iff, and_true]
    rw [if_congr hmem rfl rfl]
  · intro Pruner diffWalk getRootEntry combinePruner defaultPruner visitedPruner
      parseMPath params res hres
    unfold gettreepackUntimed at hres
    by_cases hdir : params.directories ≠ []
    · rw [if_pos hdir] at hres
      cases hres
    · rw [if_neg hdir] at hres
      simp only at hres
      cases hrp : (if params.rootdir = "" then Except.ok none
          else (parseMPath params.rootdir).map some) with
      | error msg => rw [hrp] at hres; cases hres
      | ok rootpath =>
        rw [hrp] at hres
        have hbind : ∀ (g : Option MPath → Except String (List (Entry × Option MPath))),
            (Except.ok rootpath : Except String (Option MPath)).bind g = g rootpath :=
          fun _ => rfl
        rw [hbind] at hres
        cases hce : (if params.mfnodes.length > 1 then
            (params.mfnodes.mapM fun manifestId =>
              getChangedManifestsStream diffWalk getRootEntry manifestId
                ((params.basemfnodes.get? 0).getD NULL_HASH) rootpath
                (combinePruner defaultPruner visitedPruner)
                (params.depth.getD (2 <<< 16))).map List.flatten
          else
            match params.mfnodes.get? 0 with
            | some mfnode =>
              getChangedManifestsStream diffWalk getRootEntry mfnode
                ((params.basemfnodes.get? 0).getD NULL_HASH) rootpath defaultPruner
                (params.depth.getD (2 <<< 16))
            | none => Except.ok []) with
        | error msg => rw [hce] at hres; cases hres
        | ok changedEntries =>
          rw [hce] at hres
          have hmap : Except.map (fun changedEntries => dedupByHash [] changedEntries)
              (Except.ok changedEntries : Except String (List (Entry × Option MPath)))
              = Except.ok (dedupByHash [] changedEntries) := rfl
          rw [hmap] at hres
          obtain rfl := Except.ok.inj hres
          exact hnodup changedEntries

/-- Witness for C6: two identical single-entry target streams merged into
`s ++ s`; the dedup filter emits the single tree hash exactly once, and a
concrete successful `gettreepack` run has duplicate-free hashes. -/
theorem gettreepack_each_hash_at_most_once_witness :
    ((dedupByHash [] [(⟨1, EntryType.tree, none⟩, none), (⟨1, EntryType.tree, none⟩, none)]).map
        (fun e => e.1.hash)).Nodup
    ∧ ((dedupByHash [] [(⟨1, EntryType.tree, none⟩, none), (⟨1, EntryType.tree, none⟩, none)]).map
        (fun e => e.1.hash)).count 1
      = (if 1 ∈ [(((⟨1, EntryType.tree, none⟩ : Entry), (none : Option MPath)))].map
            (fun e => e.1.hash) then 1 else 0) := by
  have h := gettreepack_each_hash_at_most_once
    [(⟨1, EntryType.tree, none⟩, none)]
    [(⟨1, EntryType.tree, none⟩, none), (⟨1, EntryType.tree, none⟩, none)] 1
    (by decide)
  exact ⟨h.1, h.2.1⟩

/-! ## `getfiles`: bounded-concurrency, order-preserving streaming

`getfiles` is `params.map(create_remotefilelog_blob ...).buffered(100)`.
The `buffered(n)` stream combinator is modelled as a small-step state
machine: a FIFO window of at most `n` admitted fetches, each either still
pending or completed; fetches complete in an arbitrary (nondeterministic)
order, but a completed fetch is emitted only once it is at the head of the
window — an early-completing fetch waits behind earlier, still-pending
ones. -/

/-- State of the buffered pipeline: inputs not yet admitted, the in-flight
window (with completion flag), and the emitted outputs. -/
structure BufState (α β : Type) where
  pending : List α
  inflight : List (α × Bool)
  emitted : List β
deriving Repr, DecidableEq

/-- One step of `buffered(n)` over the fetch function `fetch`. -/
inductive BufStep (n : Nat) {α β : Type} (fetch : α → β) :
    BufState α β → BufState α β → Prop
  | enqueue (x : α) (rest : List α) (inflight : List (α × Bool)) (emitted : List β) :
      inflight.length < n →
      BufStep n fetch ⟨x :: rest, inflight, emitted⟩
        ⟨rest, inflight ++ [(x, false)], emitted⟩
  | complete (pending : List α) (pre : List (α × Bool)) (x : α)
      (post : List (α × Bool)) (emitted : List β) :
      BufStep n fetch ⟨pending, pre ++ (x, false) :: post, emitted⟩
        ⟨pending, pre ++ (x, true) :: post, emitted⟩
  | emit (pending : List α) (x : α) (rest : List (α × Bool)) (emitted : List β) :
      BufStep n fetch ⟨pending, (x, true) :: rest, emitted⟩
        ⟨pending, rest, emitted ++ [fetch x]⟩

/-- Reachability of the buffered pipeline from the initial state on
`inputs`. -/
inductive BufReach (n : Nat) {α β : Type} (fetch : α → β) (inputs : List α) :
    BufState α β → Prop
  | init : BufReach n fetch inputs ⟨inputs, [], []⟩
  | step {s t : BufState α β} :
      BufReach n fetch inputs s → BufStep n fetch s t → BufReach n fetch inputs t

/-- The `getfiles_buffer_size` constant of the source. -/
def getfilesBufferSize : Nat := 100

/-- The `getfiles` pipeline: each `(node, path)` input is mapped through the
external `create_remotefilelog_blob` collaborator (`fetch`), buffered with
window 100. -/
def GetfilesReach {β : Type} (fetch : Hash × MPath → β)
    (inputs : List (Hash × MPath)) (s : BufState (Hash × MPath) β) : Prop :=
  BufReach getfilesBufferSize fetch inputs s

/-- C3: in every reachable state of the `getfiles` pipeline, at most 100
fetches are in flight; the emitted prefix, the window and the unadmitted
inputs always decompose the input sequence in order; and any drained state
(no pending input, empty window) has emitted exactly one blob per input
pair, in exactly the input order, whatever order the fetches completed
in. -/
theorem getfiles_order_preserving_bounded
    {β : Type} (fetch : Hash × MPath → β) (inputs : List (Hash × MPath))
    (s : BufState (Hash × MPath) β) (hreach : GetfilesReach fetch inputs s) :
    s.inflight.length ≤ 100
    ∧ s.emitted ++ s.inflight.map (fun p => fetch p.1) ++ s.pending.map fetch
        = inputs.map fetch
    ∧ (s.pending = [] → s.inflight = [] → s.emitted = inputs.map fetch) := by
  have hmain : s.inflight.length ≤ 100
      ∧ s.emitted ++ s.inflight.map (fun p => fetch p.1) ++ s.pending.map fetch
        = inputs.map fetch := by
    induction hreach with
    | init => simp
    | step hprev hstep ih =>
      obtain ⟨ihlen, ihdec⟩ := ih
      cases hstep with
      | enqueue x rest inflight emitted hlt =>
        have hlt' : inflight.length < 100 := hlt
        refine ⟨by simp only [List.length_append, List.length_cons, List.length_nil]; omega, ?_⟩
        simp only [List.map_append, List.map_cons] at ihdec ⊢
        simp only [List.append_assoc] at ihdec ⊢
        simpa using ihdec
      | complete pending pre x post emitted =>
        refine ⟨by simpa using ihlen, ?_⟩
        simp only [List.map_append, List.map_cons] at ihdec ⊢
        exact ihdec
      | emit pending x rest emitted =>
        refine ⟨by simp at ihlen ⊢; omega, ?_⟩
        simp only [List.map_cons, List.append_assoc] at ihdec ⊢
        simpa using ihdec
  refine ⟨hmain.1, hmain.2, ?_⟩
  intro hp hi
  have := hmain.2
  rw [hp, hi] at this
  simpa using this

/-- Witness for C3: a concrete run on `[(1,"a"), (2,"b"), (3,"c")]` in which
the second fetch completes after the other two (it is "delayed"); the output
is nevertheless emitted in input order. -/
theorem getfiles_order_preserving_bounded_witness :
    (⟨[], [], [1, 2, 3]⟩ : BufState (Hash × MPath) Hash).emitted
      = [((1 : Hash), ["a"]), ((2 : Hash), ["b"]), ((3 : Hash), ["c"])].map
          (fun p => p.1) := by
  have h0 : GetfilesReach (fun p => p.1)
      [((1 : Hash), ["a"]), ((2 : Hash), ["b"]), ((3 : Hash), ["c"])]
      ⟨[((1 : Hash), ["a"]), ((2 : Hash), ["b"]), ((3 : Hash), ["c"])], [], []⟩ :=
    BufReach.init
  have h1 := h0.step (BufStep.enqueue ((1 : Hash), ["a"])
    [((2 : Hash), ["b"]), ((3 : Hash), ["c"])] [] [] (by decide))
  have h2 := h1.step (BufStep.enqueue ((2 : Hash), ["b"]) [((3 : Hash), ["c"])]
    [(((1 : Hash), ["a"]), false)] [] (by decide))
  have h3 := h2.step (BufStep.enqueue ((3 : Hash), ["c"]) []
    [(((1 : Hash), ["a"]), false), (((2 : Hash), ["b"]), false)] [] (by decide))
  have h4 := h3.step (BufStep.complete []
    [(((1 : Hash), ["a"]), false), (((2 : Hash), ["b"]), false)] ((3 : Hash), ["c"]) [] [])
  have h5 := h4.step (BufStep.complete [] [] ((1 : Hash), ["a"])
    [(((2 : Hash), ["b"]), false), (((3 : Hash), ["c"]), true)] [])
  have h6 := h5.step (BufStep.emit [] ((1 : Hash), ["a"])
    [(((2 : Hash), ["b"]), false), (((3 : Hash), ["c"]), true)] [])
  have h7 := h6.step (BufStep.complete [] [] ((2 : Hash), ["b"])
    [(((3 : Hash), ["c"]), true)] [1])
  have h8 := h7.step (BufStep.emit [] ((2 : Hash), ["b"])
    [(((3 : Hash), ["c"]), true)] [1])
  have h9 := h8.step (BufStep.emit [] ((3 : Hash), ["c"]) [] [1, 2])
  exact (getfiles_order_preserving_bounded (fun p => p.1)
    [((1 : Hash), ["a"]), ((2 : Hash), ["b"]), ((3 : Hash), ["c"])]
    ⟨[], [], [1, 2, 3]⟩ h9).2.2 rfl rfl

end Mononoke
